import Mathlib

/-!
Verification of the tonteki poker equity calculator (`tonteki.py`).

The development is a shallow embedding of the source:

* card patterns are `Nat` bit patterns (Python arbitrary-precision ints),
* the two external lookup tables `suited.TABLE` and `offsuit.TABLE` are not
  part of the core sources; following the specification they are treated as
  opaque total functions and every definition is parameterised over them
  (`st` for `suited.TABLE`, `ot` for `offsuit.TABLE`),
* floating point scores are modelled with exact rationals `ℚ`,
* Python exceptions (`KeyError` on an unknown card token, `ValueError` for a
  negative combination count, `ZeroDivisionError` on an empty enumeration)
  are modelled with `Option`, `none` meaning an exception was raised.
-/

namespace Tonteki

/-! ### Card notation

`_define_bit_positions` in the source assigns `rank + suit ↦ i * 13 + j` for the
suit list `['♠', '♡', '♢', '♣']` and again for `['♤', '♥', '♦', '♧']`; the keys
of the two passes are disjoint (the suit glyphs differ), so the Python dict is
faithfully modelled by an association list searched with `find?`. -/

def ranksL : List Char := ['2', '3', '4', '5', '6', '7', '8', '9', 'T', 'J', 'Q', 'K', 'A']

def suitsA : List Char := ['♠', '♡', '♢', '♣']

def suitsB : List Char := ['♤', '♥', '♦', '♧']

/-- One pass of `_define_bit_positions`: for suit number `i` and rank number `j`
the two-character card token gets bit index `i * 13 + j`. -/
def define_bit_positions (suits : List Char) : List (String × Nat) :=
  suits.enum.flatMap (fun is =>
    ranksL.enum.map (fun jr => (String.mk [jr.2, is.2], is.1 * 13 + jr.1)))

/-- The `_POS` dictionary: both glyph alphabets. -/
def POS : List (String × Nat) := define_bit_positions suitsA ++ define_bit_positions suitsB

/-- Dictionary lookup `_POS[card]`; `none` models Python's `KeyError`. -/
def posOf (card : String) : Option Nat := (POS.find? (fun p => p.1 == card)).map Prod.snd

/-! ### Whitespace tokenisation, mirroring Python's `str.split()`
(split on runs of whitespace, no empty tokens). -/

def splitWSAux : List Char → List Char → List String
  | [], acc => if acc.isEmpty then [] else [String.mk acc.reverse]
  | c :: rest, acc =>
      if c.isWhitespace then
        if acc.isEmpty then splitWSAux rest []
        else String.mk acc.reverse :: splitWSAux rest []
      else splitWSAux rest (c :: acc)

def tokens (s : String) : List String := splitWSAux s.data []

/-- Python's `str.join(sep, l)`. -/
def pyJoin (sep : String) : List String → String
  | [] => ""
  | [x] => x
  | x :: y :: xs => x ++ sep ++ pyJoin sep (y :: xs)

/-- An argument of `_make_bit_pattern`: either a card string or a list of card
strings (the `isinstance(arg, list)` dispatch in the source). -/
inductive Arg where
  | s (v : String)
  | l (v : List String)

/-- The card tokens contributed by one argument: a list is first joined with
spaces, then the string is split on whitespace. -/
def argCards : Arg → List String
  | .s v => tokens v
  | .l v => tokens (pyJoin " " v)

/-- Inner loop of `_make_bit_pattern`:
`for card in cards.split(): pattern |= 1 << _POS[card]`. -/
def orTokens : Nat → List String → Option Nat
  | pattern, [] => some pattern
  | pattern, c :: cs =>
      match posOf c with
      | some p => orTokens (pattern ||| (1 <<< p)) cs
      | none => none

/-- Outer loop of `_make_bit_pattern` over the `*args`. -/
def mbpGo : List Arg → Nat → Option Nat
  | [], pattern => some pattern
  | arg :: rest, pattern =>
      match orTokens pattern (argCards arg) with
      | some pat => mbpGo rest pat
      | none => none

/-- The function `_make_bit_pattern`; `none` models a `KeyError` on an unknown
card token. -/
def make_bit_pattern (args : List Arg) : Option Nat := mbpGo args 0

/-- All card tokens of an argument list, in order. -/
def allCards (args : List Arg) : List String := args.flatMap argCards

/-! ### The hand evaluator

`suited.TABLE` and `offsuit.TABLE` are external collaborators (their modules are
not part of the core source); per the specification they are opaque total
functions `st : Nat → Nat × Nat` and `ot : Nat → Nat`. -/

/-- The function `evaluate`: the loop `for i in range(0, 52, 13)` accumulates the
octet sum and the running flush minimum (initialised with the sentinel 9999),
then returns `min(offsuit.TABLE[octet], value)`. -/
def evaluate (st : Nat → Nat × Nat) (ot : Nat → Nat) (pattern : Nat) : Nat :=
  let r := [0, 13, 26, 39].foldl
    (fun acc i =>
      let ov := st ((pattern >>> i) &&& 0x1fff)
      (acc.1 + ov.1, min ov.2 acc.2))
    (0, 9999)
  min (ot r.1) r.2

/-! ### Board enumeration -/

/-- `itertools.combinations l r`: all length-`r` subsequences of `l`, in the
order itertools emits them (arguments flipped so that the recursion is
structural on the list). -/
def combinations : List α → Nat → List (List α)
  | _, 0 => [[]]
  | [], _ + 1 => []
  | x :: xs, r + 1 => ((combinations xs r).map (fun c => x :: c)) ++ combinations xs (r + 1)

/-- Bit indices `i` in `range(52)` whose card is not in `mask` (the filter of
the comprehension in `_all_possibilities`). -/
def freeIdx (mask : Nat) : List Nat :=
  (List.range 52).filter (fun i => decide ((1 <<< i) &&& mask = 0))

/-- The comprehension `[1 << i for i in range(52) if ((1 << i) & mask) == 0]`. -/
def freeCards (mask : Nat) : List Nat := (freeIdx mask).map (fun i => 1 <<< i)

/-- The function `_all_possibilities`: sums (= unions, the bits being disjoint)
of all `r`-combinations of the free single-bit patterns. -/
def all_possibilities (mask r : Nat) : List Nat :=
  (combinations (freeCards mask) r).map List.sum

/-! ### Winner judging and scoring -/

/-- One iteration of the `_judge_winners` loop; the state is `(best, winners)`,
`p` is the `(index, rank)` pair from `enumerate(ranks)`. -/
def judgeStep (st : Nat × List Nat) (p : Nat × Nat) : Nat × List Nat :=
  if p.2 < st.1 then (p.2, [p.1])
  else if p.2 = st.1 then (st.1, st.2 ++ [p.1])
  else st

/-- The function `_judge_winners`, with initial best value 9999 and an empty
winners list. -/
def judge_winners (ranks : List Nat) : List Nat :=
  (ranks.enum.foldl judgeStep (9999, [])).2

/-- The inner loop of `_func`:
`for i in winners: sums[i] += 1 / len(winners)`. -/
def scoreStep (sums : List ℚ) (winners : List Nat) : List ℚ :=
  winners.foldl (fun s i => s.set i (s.getD i 0 + 1 / (winners.length : ℚ))) sums

/-- One iteration of the outer loop of `_func` for a single future pattern. -/
def funcStep (st : Nat → Nat × Nat) (ot : Nat → Nat) (present : List Nat)
    (sums : List ℚ) (future : Nat) : List ℚ :=
  scoreStep sums (judge_winners (present.map (fun p => evaluate st ot (p ||| future))))

/-- The function `_func`: starting from `[0] * len(present_patterns)`, score
every future pattern. -/
def func (st : Nat → Nat × Nat) (ot : Nat → Nat) (present futures : List Nat) : List ℚ :=
  futures.foldl (funcStep st ot present) (List.replicate present.length (0 : ℚ))

/-! ### Equity calculation -/

/-- The list comprehension
`[_make_bit_pattern(hand, board) for hand in active_hands]`. -/
def presentGo (board : String) : List String → Option (List Nat)
  | [] => some []
  | hand :: rest =>
      match make_bit_pattern [Arg.s hand, Arg.s board], presentGo board rest with
      | some p, some ps => some (p :: ps)
      | _, _ => none

/-- The function `calculate_equity`.  `none` models the Python exceptions: a
`KeyError` for an unknown card token, the `ValueError` raised by
`itertools.combinations` when `5 - len(board.split())` is negative, and the
`ZeroDivisionError` of the final normalisation when the enumeration is empty. -/
def calculate_equity (st : Nat → Nat × Nat) (ot : Nat → Nat)
    (active mucked : List String) (board : String) : Option (List ℚ) :=
  match presentGo board active,
        make_bit_pattern [Arg.l active, Arg.l mucked, Arg.s board] with
  | some present, some mask =>
      if 5 < (tokens board).length then none
      else
        let futures := all_possibilities mask (5 - (tokens board).length)
        if futures.length = 0 then none
        else some ((func st ot present futures).map (fun s => s / (futures.length : ℚ)))
  | _, _ => none

/-! ### Parallel decomposition -/

/-- The generator `_chunk`: the running start `s` of iteration `i` equals
`i * n // d` because the loop carries the previous end `e = i * n // d` into
`s`, so the `i`-th emitted slice is `list_[i*n//d : (i+1)*n//d]`. -/
def chunk (l : List α) (d : Nat) : List (List α) :=
  (List.range d).map
    (fun i => (l.drop (i * l.length / d)).take ((i + 1) * l.length / d - i * l.length / d))

/-- The reduction lambda of `calculate_equity_in_parallel`:
`[a[i] + b[i] for i in range(n)]`. -/
def pyAddVec (n : Nat) (a b : List ℚ) : List ℚ :=
  (List.range n).map (fun i => a.getD i 0 + b.getD i 0)

/-- The function `calculate_equity_in_parallel`, with the worker count
`multiprocessing.cpu_count()` as the explicit parameter `cpu`.  The pool maps
`_func` over the chunks and the partial sums are reduced elementwise starting
from `[0] * len(active_hands)`. -/
def calculate_equity_in_parallel (st : Nat → Nat × Nat) (ot : Nat → Nat) (cpu : Nat)
    (active mucked : List String) (board : String) : Option (List ℚ) :=
  match presentGo board active,
        make_bit_pattern [Arg.l active, Arg.l mucked, Arg.s board] with
  | some present, some mask =>
      if 5 < (tokens board).length then none
      else
        let futures := all_possibilities mask (5 - (tokens board).length)
        if futures.length = 0 then none
        else
          let results := (chunk futures cpu).map (func st ot present)
          let sums := results.foldl (pyAddVec active.length)
            (List.replicate active.length (0 : ℚ))
          some (sums.map (fun s => s / (futures.length : ℚ)))
  | _, _ => none

/-! ### popcount (specification vocabulary)

The claims speak about the number of set bits of a pattern; the fuel-based
definition reduces in the kernel. -/

def popcountAux : Nat → Nat → Nat
  | 0, _ => 0
  | fuel + 1, n => if n = 0 then 0 else n % 2 + popcountAux fuel (n / 2)

def popcount (n : Nat) : Nat := popcountAux n n

end Tonteki

namespace Tonteki

/-! ### Claim C1: structure of `evaluate` -/

theorem evaluate_le_sentinel (st : Nat → Nat × Nat) (ot : Nat → Nat) (pattern : Nat) :
    evaluate st ot pattern ≤ 9999 := by
  simp only [evaluate, List.foldl]
  omega

/-- Claim C1: for every 52-bit pattern with exactly seven bits set, `evaluate`
returns the minimum of the octet-table value of the summed per-suit octet
contributions and of the best flush-candidate value over the four contiguous
13-bit suit slices, 9999 being the initial (sentinel) accumulator value. -/
theorem evaluate_eq_min_of_tables (st : Nat → Nat × Nat) (ot : Nat → Nat)
    (pattern : Nat) (h52 : pattern < 2 ^ 52) (h7 : popcount pattern = 7) :
    evaluate st ot pattern =
      min (ot (([0, 13, 26, 39].map (fun i => (st ((pattern >>> i) &&& 0x1fff)).1)).sum))
        (([0, 13, 26, 39].map (fun i => (st ((pattern >>> i) &&& 0x1fff)).2)).foldr min 9999) := by
  simp only [evaluate, List.foldl, List.map, List.sum_cons, List.sum_nil, List.foldr]
  congr 1
  · congr 1
    omega
  · simp [Nat.min_comm, Nat.min_assoc, Nat.min_left_comm]

/-- Witness for C1 at the pattern with the seven lowest bits set. -/
theorem evaluate_eq_min_of_tables_witness :
    ((0x7f : Nat) < 2 ^ 52 ∧ popcount 0x7f = 7) ∧
      evaluate (fun _ => (1, 9999)) (fun o => o) 0x7f =
        min ((fun o => o) (([0, 13, 26, 39].map
              (fun i => ((fun _ => ((1 : Nat), (9999 : Nat))) (((0x7f : Nat) >>> i) &&& 0x1fff)).1)).sum))
          (([0, 13, 26, 39].map
              (fun i => ((fun _ => ((1 : Nat), (9999 : Nat))) (((0x7f : Nat) >>> i) &&& 0x1fff)).2)).foldr min 9999) :=
  ⟨⟨by decide, by decide⟩,
    evaluate_eq_min_of_tables (fun _ => (1, 9999)) (fun o => o) 0x7f (by decide) (by decide)⟩

/-! ### Claim C8: the card-to-bit-index mapping -/

/-- Claim C8: the bit indices assigned by the first glyph alphabet enumerate
`0, …, 51` exactly once in suit-contiguous, rank-increasing order (rank 2 at
block offset 0, Ace at offset 12), the second alphabet assigns the identical
indices, and looking any card of either alphabet up in `_POS` yields
`i * 13 + j` for suit number `i` and rank number `j`. -/
theorem card_positions_bijection_and_alias :
    ((define_bit_positions suitsA).map Prod.snd = List.range 52) ∧
    ((define_bit_positions suitsB).map Prod.snd = List.range 52) ∧
    (((List.range 4).all fun i => (List.range 13).all fun j =>
        (posOf (String.mk [ranksL.getD j ' ', suitsA.getD i ' ']) == some (i * 13 + j)) &&
        (posOf (String.mk [ranksL.getD j ' ', suitsB.getD i ' ']) == some (i * 13 + j))) = true) ∧
    posOf "2♠" = some 0 ∧ posOf "A♠" = some 12 ∧ posOf "2♡" = some 13 ∧
    posOf "A♣" = some 51 ∧ posOf "A♤" = some 12 ∧ posOf "A♧" = some 51 := by
  decide

/-! ### Combination enumeration lemmas (for C2) -/

theorem mem_combinations {α : Type _} : ∀ {l : List α} {r : Nat} {s : List α},
    s ∈ combinations l r → s.Sublist l ∧ s.length = r := by
  intro l
  induction l with
  | nil =>
    intro r s h
    match r with
    | 0 =>
      simp only [combinations, List.mem_singleton] at h
      subst h
      simp
    | r + 1 => simp [combinations] at h
  | cons x xs ih =>
    intro r s h
    match r with
    | 0 =>
      simp only [combinations, List.mem_singleton] at h
      subst h
      simp
    | r + 1 =>
      simp only [combinations, List.mem_append, List.mem_map] at h
      rcases h with ⟨c, hc, rfl⟩ | h
      · obtain ⟨h1, h2⟩ := ih hc
        exact ⟨h1.cons₂ x, by simp [h2]⟩
      · obtain ⟨h1, h2⟩ := ih h
        exact ⟨h1.cons x, h2⟩

theorem length_combinations {α : Type _} : ∀ (l : List α) (r : Nat),
    (combinations l r).length = l.length.choose r := by
  intro l
  induction l with
  | nil =>
    intro r
    match r with
    | 0 => simp [combinations]
    | r + 1 => simp [combinations]
  | cons x xs ih =>
    intro r
    match r with
    | 0 => simp [combinations]
    | r + 1 =>
      simp only [combinations, List.length_append, List.length_map, ih,
        List.length_cons, Nat.choose_succ_succ]

theorem nodup_combinations {α : Type _} : ∀ {l : List α}, l.Nodup → ∀ r : Nat,
    (combinations l r).Nodup := by
  intro l
  induction l with
  | nil =>
    intro _ r
    match r with
    | 0 => simp [combinations]
    | r + 1 => simp [combinations]
  | cons x xs ih =>
    intro hl r
    obtain ⟨hx, hxs⟩ := List.nodup_cons.1 hl
    match r with
    | 0 => simp [combinations]
    | r + 1 =>
      rw [combinations, List.nodup_append]
      refine ⟨List.Nodup.map (fun a b h => by simpa using h) (ih hxs r), ih hxs (r + 1), ?_⟩
      intro a ha hb
      simp only [List.mem_map] at ha
      obtain ⟨c, _, rfl⟩ := ha
      exact hx ((mem_combinations hb).1.subset (List.mem_cons_self x c))

theorem combinations_map {α β : Type _} (f : α → β) : ∀ (l : List α) (r : Nat),
    combinations (l.map f) r = (combinations l r).map (List.map f) := by
  intro l
  induction l with
  | nil =>
    intro r
    match r with
    | 0 => simp [combinations]
    | r + 1 => simp [combinations]
  | cons x xs ih =>
    intro r
    match r with
    | 0 => simp [combinations]
    | r + 1 =>
      show combinations (f x :: xs.map f) (r + 1) = _
      rw [combinations, combinations, ih, ih, List.map_append, List.map_map, List.map_map]
      congr 1

/-! ### Bits of sums of distinct powers of two -/

theorem testBit_sum_two_pow : ∀ {s : List Nat}, s.Sorted (· < ·) →
    ∀ j, ((s.map (fun i => 2 ^ i)).sum).testBit j = decide (j ∈ s) := by
  intro s
  induction s with
  | nil =>
    intro _ j
    simp
  | cons a t ih =>
    intro hs j
    obtain ⟨ha, ht⟩ := List.sorted_cons.1 hs
    have hdvd : 2 ^ (a + 1) ∣ (t.map (fun i => 2 ^ i)).sum := by
      refine List.dvd_sum ?_
      intro x hx
      obtain ⟨i, hi, rfl⟩ := List.mem_map.1 hx
      exact pow_dvd_pow 2 (ha i hi)
    obtain ⟨m, hm⟩ := hdvd
    simp only [List.map_cons, List.sum_cons, hm]
    by_cases hj : j < a + 1
    · have hmod : (2 ^ a + 2 ^ (a + 1) * m) % 2 ^ (a + 1) = 2 ^ a := by
        rw [Nat.add_mul_mod_self_left,
          Nat.mod_eq_of_lt (Nat.pow_lt_pow_succ (by omega))]
      have h1 := Nat.testBit_mod_two_pow (2 ^ a + 2 ^ (a + 1) * m) (a + 1) j
      rw [hmod, decide_eq_true hj, Bool.true_and] at h1
      rw [← h1]
      by_cases hja : j = a
      · subst hja
        simp [Nat.testBit_two_pow_self]
      · have hjt : j ∉ t := fun h2 => absurd (ha j h2) (by omega)
        rw [Nat.testBit_two_pow_of_ne (fun h2 => hja h2.symm)]
        simp [List.mem_cons, hja, hjt]
    · have hne : j ≠ a := by omega
      have hpow : (2 : Nat) ^ j = 2 ^ (a + 1) * 2 ^ (j - (a + 1)) := by
        rw [← pow_add]
        congr 1
        omega
      have hx : (2 ^ a + 2 ^ (a + 1) * m) / 2 ^ j = (2 ^ (a + 1) * m) / 2 ^ j := by
        rw [hpow, ← Nat.div_div_eq_div_mul, ← Nat.div_div_eq_div_mul]
        congr 1
        rw [Nat.add_mul_div_left _ _ (pow_pos (by omega) (a + 1)),
          Nat.div_eq_of_lt (Nat.pow_lt_pow_succ (by omega)), Nat.zero_add,
          Nat.mul_div_cancel_left m (pow_pos (by omega) (a + 1))]
      have hbit : (2 ^ a + 2 ^ (a + 1) * m).testBit j = (2 ^ (a + 1) * m).testBit j := by
        rw [Nat.testBit_to_div_mod, Nat.testBit_to_div_mod, hx]
      rw [hbit, ← hm, ih ht j]
      simp [List.mem_cons, hne]

/-! ### popcount agrees with the length of `Nat.bitIndices` -/

theorem popcountAux_eq_bitIndices : ∀ fuel n : Nat, n ≤ fuel →
    popcountAux fuel n = n.bitIndices.length := by
  intro fuel
  induction fuel with
  | zero =>
    intro n hn
    have h0 : n = 0 := by omega
    subst h0
    simp [popcountAux]
  | succ fuel ih =>
    intro n hn
    by_cases h0 : n = 0
    · subst h0
      simp [popcountAux]
    · rw [popcountAux, if_neg h0, ih (n / 2) (by omega)]
      rcases Nat.even_or_odd n with he | ho
      · obtain ⟨k, hk⟩ := he
        have hk2 : n = 2 * k := by omega
        subst hk2
        rw [Nat.bitIndices_two_mul]
        simp [Nat.mul_div_cancel_left, Nat.mul_mod_right]
      · obtain ⟨k, hk⟩ := ho
        subst hk
        rw [Nat.bitIndices_two_mul_add_one]
        have hd : (2 * k + 1) / 2 = k := by omega
        have hmm : (2 * k + 1) % 2 = 1 := by omega
        rw [hd, hmm]
        simp [Nat.add_comm]

theorem popcount_eq_length_bitIndices (n : Nat) : popcount n = n.bitIndices.length :=
  popcountAux_eq_bitIndices n n le_rfl

/-! ### The free-card index list -/

theorem freeIdx_sorted (mask : Nat) : (freeIdx mask).Sorted (· < ·) :=
  List.Pairwise.filter _ (List.sorted_lt_range 52)

theorem mem_freeIdx (mask i : Nat) :
    i ∈ freeIdx mask ↔ i < 52 ∧ (1 <<< i) &&& mask = 0 := by
  simp [freeIdx, List.mem_filter, List.mem_range]

theorem free_iff_testBit_false (mask i : Nat) :
    (1 <<< i) &&& mask = 0 ↔ mask.testBit i = false := by
  rw [Nat.shiftLeft_eq, one_mul, Nat.two_pow_and]
  cases h : mask.testBit i <;> simp [h, (pow_pos (by omega : 0 < 2) i).ne']

theorem length_filter_compl {α : Type _} (p q : α → Bool) (hpq : ∀ a, q a = !p a) :
    ∀ l : List α, (l.filter p).length + (l.filter q).length = l.length := by
  intro l
  induction l with
  | nil => simp
  | cons x xs ih =>
    cases h : p x <;> simp [List.filter_cons, h, hpq] <;> omega

theorem length_freeIdx (mask : Nat) (hm : mask < 2 ^ 52) :
    (freeIdx mask).length = 52 - popcount mask := by
  have hchar : ∀ j, mask.testBit j = decide (j ∈ mask.bitIndices) := by
    intro j
    conv_lhs => rw [← Nat.twoPowSum_bitIndices mask]
    exact testBit_sum_two_pow Nat.bitIndices_sorted j
  have hmem : ∀ j, j ∈ mask.bitIndices ↔
      j ∈ (List.range 52).filter (fun i => mask.testBit i) := by
    intro j
    rw [List.mem_filter, List.mem_range]
    constructor
    · intro hj
      refine ⟨?_, by rw [hchar]; simpa⟩
      have h2 : 2 ^ j ≤ mask := Nat.two_pow_le_of_mem_bitIndices hj
      exact (Nat.pow_lt_pow_iff_right (by omega)).1 (lt_of_le_of_lt h2 hm)
    · intro h2
      rw [hchar] at h2
      exact of_decide_eq_true h2.2
  have hlen1 : mask.bitIndices.length =
      ((List.range 52).filter (fun i => mask.testBit i)).length :=
    List.Perm.length_eq ((List.perm_ext_iff_of_nodup Nat.bitIndices_sorted.nodup
      (List.Nodup.filter _ (List.nodup_range 52))).2 hmem)
  have hsplit := length_filter_compl (fun i => mask.testBit i) (fun i => !mask.testBit i)
    (fun _ => rfl) (List.range 52)
  rw [List.length_range] at hsplit
  have hfil : freeIdx mask = (List.range 52).filter (fun i => !mask.testBit i) := by
    unfold freeIdx
    apply List.filter_congr
    intro x _
    have h3 := free_iff_testBit_false mask x
    cases h : mask.testBit x <;> simp [h, h3]
  rw [popcount_eq_length_bitIndices, hlen1, hfil]
  omega

/-! ### Claim C2: the board-completion enumeration -/

theorem all_possibilities_eq_sorted_form (mask r : Nat) :
    all_possibilities mask r =
      (combinations (freeIdx mask) r).map (fun s => (s.map (fun i => 2 ^ i)).sum) := by
  unfold all_possibilities freeCards
  rw [combinations_map, List.map_map]
  apply List.map_congr_left
  intro s _
  simp [Function.comp, Nat.shiftLeft_eq]

/-- Claim C2: `_all_possibilities(mask, r)` produces exactly
`choose (52 - popcount mask) r` results, pairwise distinct, each with exactly
`r` bits set and bitwise disjoint from `mask` (hence from every holding, mucked
hand and board card merged into the used mask). -/
theorem all_possibilities_spec (mask r : Nat) (hm : mask < 2 ^ 52) :
    (all_possibilities mask r).length = Nat.choose (52 - popcount mask) r ∧
    (all_possibilities mask r).Nodup ∧
    ∀ x ∈ all_possibilities mask r, popcount x = r ∧ x &&& mask = 0 := by
  rw [all_possibilities_eq_sorted_form]
  refine ⟨?_, ?_, ?_⟩
  · rw [List.length_map, length_combinations, length_freeIdx mask hm]
  · refine List.Nodup.map_on ?_ (nodup_combinations (freeIdx_sorted mask).nodup r)
    intro s hsm t htm heq
    have hs := List.Pairwise.sublist (mem_combinations hsm).1 (freeIdx_sorted mask)
    have ht := List.Pairwise.sublist (mem_combinations htm).1 (freeIdx_sorted mask)
    have h1 := Nat.bitIndices_twoPowsum hs
    have h2 := Nat.bitIndices_twoPowsum ht
    rw [← h1, heq, h2]
  · intro x hx
    obtain ⟨s, hsm, rfl⟩ := List.mem_map.1 hx
    obtain ⟨hsub, hlen⟩ := mem_combinations hsm
    have hs : s.Sorted (· < ·) := List.Pairwise.sublist hsub (freeIdx_sorted mask)
    constructor
    · rw [popcount_eq_length_bitIndices, Nat.bitIndices_twoPowsum hs, hlen]
    · apply Nat.eq_of_testBit_eq
      intro j
      rw [Nat.testBit_land, Nat.zero_testBit, testBit_sum_two_pow hs j]
      by_cases hmem : j ∈ s
      · have hfree := ((mem_freeIdx mask j).1 (hsub.subset hmem)).2
        rw [(free_iff_testBit_false mask j).1 hfree]
        simp
      · simp [hmem]

/-- Witness for C2 at the empty mask and one card to deal. -/
theorem all_possibilities_spec_witness :
    ((0 : Nat) < 2 ^ 52) ∧
      ((all_possibilities 0 1).length = Nat.choose (52 - popcount 0) 1 ∧
       (all_possibilities 0 1).Nodup ∧
       ∀ x ∈ all_possibilities 0 1, popcount x = 1 ∧ x &&& 0 = 0) :=
  ⟨by decide, all_possibilities_spec 0 1 (by decide)⟩

/-! ### Winner judging (for C3) -/

theorem foldl_min_le_init : ∀ (l : List Nat) (b : Nat), l.foldl min b ≤ b := by
  intro l
  induction l with
  | nil => intro b; exact le_rfl
  | cons x xs ih =>
    intro b
    calc xs.foldl min (min b x) ≤ min b x := ih (min b x)
      _ ≤ b := Nat.min_le_left b x

theorem foldl_min_le_mem : ∀ (l : List Nat) (b x : Nat), x ∈ l → l.foldl min b ≤ x := by
  intro l
  induction l with
  | nil => intro b x hx; exact absurd hx (List.not_mem_nil x)
  | cons y ys ih =>
    intro b x hx
    rcases List.mem_cons.1 hx with rfl | hx
    · calc ys.foldl min (min b x) ≤ min b x := foldl_min_le_init ys (min b x)
        _ ≤ x := Nat.min_le_right b x
    · exact ih (min b y) x hx

theorem foldl_min_cases : ∀ (l : List Nat) (b : Nat), l.foldl min b = b ∨ l.foldl min b ∈ l := by
  intro l
  induction l with
  | nil => intro b; exact Or.inl rfl
  | cons y ys ih =>
    intro b
    rcases ih (min b y) with h | h
    · rw [List.foldl_cons, h]
      rcases Nat.le_total b y with hby | hyb
      · exact Or.inl (Nat.min_eq_left hby)
      · exact Or.inr (by rw [Nat.min_eq_right hyb]; exact List.mem_cons_self y ys)
    · exact Or.inr (List.mem_cons_of_mem y h)

/-- Loop invariant of `_judge_winners`: after folding the enumerated suffix from
index `k` onto state `(best, winners)`, the best value is the minimum of the
suffix and `best`, and the winner list holds the surviving old winners (when no
strictly better rank appeared) plus exactly the suffix indices achieving the
minimum. -/
theorem judge_foldl_spec : ∀ (ranks : List Nat) (k best : Nat) (winners : List Nat),
    ((List.enumFrom k ranks).foldl judgeStep (best, winners)).1 = ranks.foldl min best ∧
    (∀ i, i ∈ ((List.enumFrom k ranks).foldl judgeStep (best, winners)).2 ↔
      ((ranks.foldl min best = best ∧ i ∈ winners) ∨
       ∃ j, j < ranks.length ∧ i = k + j ∧ ranks.getD j 0 = ranks.foldl min best)) := by
  intro ranks
  induction ranks with
  | nil =>
    intro k best winners
    refine ⟨rfl, fun i => ?_⟩
    simp
  | cons r rest ih =>
    intro k best winners
    simp only [List.enumFrom_cons, List.foldl_cons, List.length_cons]
    by_cases h1 : r < best
    · rw [show judgeStep (best, winners) (k, r) = (r, [k]) from by simp [judgeStep, h1],
        show min best r = r from by omega]
      obtain ⟨ihA, ihB⟩ := ih (k + 1) r [k]
      have hm_le : rest.foldl min r ≤ r := foldl_min_le_init rest r
      refine ⟨ihA, fun i => ?_⟩
      rw [ihB i]
      constructor
      · rintro (⟨hm, hi⟩ | ⟨j, hj, rfl, hval⟩)
        · right
          rw [List.mem_singleton] at hi
          exact ⟨0, by omega, by omega, by simpa using hm.symm⟩
        · exact Or.inr ⟨j + 1, by omega, by omega, by simpa using hval⟩
      · rintro (⟨hm, _⟩ | ⟨j, hj, rfl, hval⟩)
        · exact absurd hm (by omega)
        · match j with
          | 0 =>
            left
            simp only [List.getD_cons_zero] at hval
            exact ⟨hval.symm, by simp⟩
          | j + 1 =>
            exact Or.inr ⟨j, by omega, by omega, by simpa using hval⟩
    · by_cases h2 : r = best
      · rw [show judgeStep (best, winners) (k, r) = (best, winners ++ [k]) from by
            simp [judgeStep, h1, h2],
          show min best r = best from by omega]
        obtain ⟨ihA, ihB⟩ := ih (k + 1) best (winners ++ [k])
        refine ⟨ihA, fun i => ?_⟩
        rw [ihB i]
        constructor
        · rintro (⟨hm, hi⟩ | ⟨j, hj, rfl, hval⟩)
          · rcases List.mem_append.1 hi with hi | hi
            · exact Or.inl ⟨hm, hi⟩
            · rw [List.mem_singleton] at hi
              refine Or.inr ⟨0, by omega, by omega, ?_⟩
              simp only [List.getD_cons_zero]
              omega
          · exact Or.inr ⟨j + 1, by omega, by omega, by simpa using hval⟩
        · rintro (⟨hm, hi⟩ | ⟨j, hj, rfl, hval⟩)
          · exact Or.inl ⟨hm, List.mem_append_left _ hi⟩
          · match j with
            | 0 =>
              simp only [List.getD_cons_zero] at hval
              exact Or.inl ⟨by omega, List.mem_append_right _ (by simp)⟩
            | j + 1 =>
              exact Or.inr ⟨j, by omega, by omega, by simpa using hval⟩
      · rw [show judgeStep (best, winners) (k, r) = (best, winners) from by
            simp [judgeStep, h1, h2],
          show min best r = best from by omega]
        obtain ⟨ihA, ihB⟩ := ih (k + 1) best winners
        have hm_le : rest.foldl min best ≤ best := foldl_min_le_init rest best
        refine ⟨ihA, fun i => ?_⟩
        rw [ihB i]
        constructor
        · rintro (⟨hm, hi⟩ | ⟨j, hj, rfl, hval⟩)
          · exact Or.inl ⟨hm, hi⟩
          · exact Or.inr ⟨j + 1, by omega, by omega, by simpa using hval⟩
        · rintro (⟨hm, hi⟩ | ⟨j, hj, rfl, hval⟩)
          · exact Or.inl ⟨hm, hi⟩
          · match j with
            | 0 =>
              simp only [List.getD_cons_zero] at hval
              exact absurd hval (by omega)
            | j + 1 =>
              exact Or.inr ⟨j, by omega, by omega, by simpa using hval⟩

/-- Membership characterisation of `_judge_winners`: the winner indices are the
in-range indices whose rank equals the running minimum (initialised at 9999). -/
theorem judge_winners_mem (ranks : List Nat) (i : Nat) :
    i ∈ judge_winners ranks ↔ i < ranks.length ∧ ranks.getD i 0 = ranks.foldl min 9999 := by
  unfold judge_winners
  rw [List.enum_eq_enumFrom]
  obtain ⟨_, hB⟩ := judge_foldl_spec ranks 0 9999 []
  rw [hB i]
  simp only [List.not_mem_nil, and_false, false_or]
  constructor
  · rintro ⟨j, hj, rfl, hval⟩
    exact ⟨by omega, by simpa using hval⟩
  · rintro ⟨hi, hval⟩
    exact ⟨i, hi, by omega, hval⟩

theorem judge_foldl_nodup : ∀ (ranks : List Nat) (k best : Nat) (winners : List Nat),
    winners.Nodup → (∀ w ∈ winners, w < k) →
    ((List.enumFrom k ranks).foldl judgeStep (best, winners)).2.Nodup ∧
    (∀ w ∈ ((List.enumFrom k ranks).foldl judgeStep (best, winners)).2,
      w < k + ranks.length) := by
  intro ranks
  induction ranks with
  | nil =>
    intro k best winners hnd hlt
    exact ⟨hnd, fun w hw => by simpa using hlt w hw⟩
  | cons r rest ih =>
    intro k best winners hnd hlt
    simp only [List.enumFrom_cons, List.foldl_cons, List.length_cons]
    have hgoal : ∀ st : Nat × List Nat, st.2.Nodup → (∀ w ∈ st.2, w < k + 1) →
        ((List.enumFrom (k + 1) rest).foldl judgeStep st).2.Nodup ∧
        (∀ w ∈ ((List.enumFrom (k + 1) rest).foldl judgeStep st).2,
          w < k + (rest.length + 1)) := by
      intro st h1 h2
      obtain ⟨hA, hB⟩ := ih (k + 1) st.1 st.2 h1 h2
      exact ⟨hA, fun w hw => by have := hB w hw; omega⟩
    by_cases h1 : r < best
    · rw [show judgeStep (best, winners) (k, r) = (r, [k]) from by simp [judgeStep, h1]]
      exact hgoal (r, [k]) (by simp) (by simp)
    · by_cases h2 : r = best
      · rw [show judgeStep (best, winners) (k, r) = (best, winners ++ [k]) from by
            simp [judgeStep, h1, h2]]
        refine hgoal (best, winners ++ [k]) ?_ ?_
        · rw [List.nodup_append]
          exact ⟨hnd, by simp, fun w hw hk => by
            rw [List.mem_singleton] at hk
            exact absurd (hlt w hw) (by omega)⟩
        · intro w hw
          rcases List.mem_append.1 hw with hw | hw
          · exact Nat.lt_succ_of_lt (hlt w hw)
          · rw [List.mem_singleton] at hw
            omega
      · rw [show judgeStep (best, winners) (k, r) = (best, winners) from by
            simp [judgeStep, h1, h2]]
        exact hgoal (best, winners) hnd (fun w hw => Nat.lt_succ_of_lt (hlt w hw))

theorem judge_winners_nodup (ranks : List Nat) : (judge_winners ranks).Nodup := by
  unfold judge_winners
  rw [List.enum_eq_enumFrom]
  exact (judge_foldl_nodup ranks 0 9999 [] (by simp) (by simp)).1

theorem judge_winners_lt_length (ranks : List Nat) :
    ∀ w ∈ judge_winners ranks, w < ranks.length := by
  intro w hw
  exact ((judge_winners_mem ranks w).1 hw).1

theorem judge_winners_ne_nil (ranks : List Nat) (hne : ranks ≠ [])
    (hle : ∀ x ∈ ranks, x ≤ 9999) : judge_winners ranks ≠ [] := by
  have hattain : ∃ i, i < ranks.length ∧ ranks.getD i 0 = ranks.foldl min 9999 := by
    rcases foldl_min_cases ranks 9999 with h | h
    · match ranks, hne with
      | r :: rest, _ =>
        refine ⟨0, by simp, ?_⟩
        have h1 : (r :: rest).foldl min 9999 ≤ r :=
          foldl_min_le_mem _ _ r (List.mem_cons_self r rest)
        have h2 : r ≤ 9999 := hle r (List.mem_cons_self r rest)
        simp only [List.getD_cons_zero]
        omega
    · obtain ⟨n, hn, hval⟩ := List.mem_iff_getElem.1 h
      exact ⟨n, hn, by rw [List.getD_eq_getElem _ _ hn, hval]⟩
  obtain ⟨i, hi, hval⟩ := hattain
  intro hnil
  have hmem := (judge_winners_mem ranks i).2 ⟨hi, hval⟩
  rw [hnil] at hmem
  exact absurd hmem (List.not_mem_nil i)

/-! ### Claim C3: the winner set is exactly the argmin set -/

/-- Claim C3: for rank lists whose entries do not exceed the sentinel 9999 (as
holds for every list of `evaluate` results), `_judge_winners` returns exactly
the indices achieving the minimum rank. -/
theorem judge_winners_eq_min_indices (ranks : List Nat) (h : ∀ x ∈ ranks, x ≤ 9999)
    (i : Nat) :
    i ∈ judge_winners ranks ↔
      ∃ hi : i < ranks.length, ∀ j, ∀ hj : j < ranks.length,
        ranks.get ⟨i, hi⟩ ≤ ranks.get ⟨j, hj⟩ := by
  rw [judge_winners_mem]
  constructor
  · rintro ⟨hi, hval⟩
    refine ⟨hi, fun j hj => ?_⟩
    have h1 := foldl_min_le_mem ranks 9999 (ranks.get ⟨j, hj⟩) (List.get_mem _ _ _)
    have h2 : ranks.get ⟨i, hi⟩ = ranks.getD i 0 := by
      rw [List.getD_eq_getElem _ _ hi, List.get_eq_getElem]
    omega
  · rintro ⟨hi, hmin⟩
    refine ⟨hi, ?_⟩
    have hgets : ranks.get ⟨i, hi⟩ = ranks.getD i 0 := by
      rw [List.getD_eq_getElem _ _ hi, List.get_eq_getElem]
    have hle1 : ranks.foldl min 9999 ≤ ranks.getD i 0 := by
      rw [← hgets]
      exact foldl_min_le_mem ranks 9999 _ (List.get_mem _ _ _)
    have hle2 : ranks.getD i 0 ≤ ranks.foldl min 9999 := by
      rcases foldl_min_cases ranks 9999 with hcase | hcase
      · rw [hcase, ← hgets]
        exact h _ (List.get_mem _ _ _)
      · obtain ⟨n, hn, hval2⟩ := List.mem_iff_getElem.1 hcase
        have h4 : ranks.get ⟨n, hn⟩ = ranks.foldl min 9999 := by
          rw [List.get_eq_getElem]
          exact hval2
        rw [← hgets, ← h4]
        exact hmin n hn
    omega

/-- Witness for C3 on the rank list `[5, 3, 3]`: index 1 achieves the minimum. -/
theorem judge_winners_eq_min_indices_witness :
    (∀ x ∈ ([5, 3, 3] : List Nat), x ≤ 9999) ∧
      (1 ∈ judge_winners [5, 3, 3] ↔
        ∃ hi : 1 < ([5, 3, 3] : List Nat).length, ∀ j, ∀ hj : j < ([5, 3, 3] : List Nat).length,
          ([5, 3, 3] : List Nat).get ⟨1, hi⟩ ≤ ([5, 3, 3] : List Nat).get ⟨j, hj⟩) :=
  ⟨by decide, judge_winners_eq_min_indices [5, 3, 3] (by decide) 1⟩

/-! ### List helpers for the scoring layer -/

theorem list_eq_of_getD (a b : List ℚ) (hlen : a.length = b.length)
    (h : ∀ i, i < a.length → a.getD i 0 = b.getD i 0) : a = b := by
  apply List.ext_get hlen
  intro n h1 h2
  have h3 := h n h1
  rw [List.getD_eq_getElem _ _ h1, List.getD_eq_getElem _ _ h2] at h3
  simpa [List.get_eq_getElem] using h3

theorem getD_range_map (f : Nat → ℚ) (n i : Nat) (hi : i < n) :
    ((List.range n).map f).getD i 0 = f i := by
  rw [List.getD_eq_getElem _ _ (by simpa using hi)]
  simp

theorem sum_set_add (s : List ℚ) (i : Nat) (q : ℚ) (hi : i < s.length) :
    (s.set i (s.getD i 0 + q)).sum = s.sum + q := by
  rw [List.sum_set, if_pos hi]
  have hsplit : s.sum = (s.take i).sum + (s.drop i).sum := (List.sum_take_add_sum_drop s i).symm
  rw [List.drop_eq_getElem_cons hi, List.sum_cons] at hsplit
  rw [List.getD_eq_getElem _ _ hi, hsplit]
  ring

theorem sum_map_div (l : List ℚ) (c : ℚ) : (l.map (fun x => x / c)).sum = l.sum / c := by
  induction l with
  | nil => simp
  | cons x xs ih =>
    simp only [List.map_cons, List.sum_cons, ih]
    ring

/-! ### The inner scoring fold of `_func` -/

theorem scoreFold_length (q : ℚ) : ∀ (ws : List Nat) (s : List ℚ),
    (ws.foldl (fun s i => s.set i (s.getD i 0 + q)) s).length = s.length := by
  intro ws
  induction ws with
  | nil => intro s; rfl
  | cons w ws ih => intro s; rw [List.foldl_cons, ih, List.length_set]

theorem scoreFold_sum (q : ℚ) : ∀ (ws : List Nat) (s : List ℚ), (∀ w ∈ ws, w < s.length) →
    (ws.foldl (fun s i => s.set i (s.getD i 0 + q)) s).sum = s.sum + ws.length * q := by
  intro ws
  induction ws with
  | nil => intro s _; simp
  | cons w ws ih =>
    intro s hlt
    rw [List.foldl_cons, ih _ (fun x hx => by
      rw [List.length_set]
      exact hlt x (List.mem_cons_of_mem w hx))]
    rw [sum_set_add s w q (hlt w (List.mem_cons_self w ws)), List.length_cons]
    push_cast
    ring

theorem scoreFold_getD (q : ℚ) : ∀ (ws : List Nat) (s : List ℚ), ws.Nodup →
    (∀ w ∈ ws, w < s.length) → ∀ i, i < s.length →
    (ws.foldl (fun s i => s.set i (s.getD i 0 + q)) s).getD i 0 =
      s.getD i 0 + (if i ∈ ws then q else 0) := by
  intro ws
  induction ws with
  | nil => intro s _ _ i _; simp
  | cons w ws ih =>
    intro s hnd hlt i hi
    obtain ⟨hw, hnd2⟩ := List.nodup_cons.1 hnd
    rw [List.foldl_cons, ih _ hnd2 (fun x hx => by
        rw [List.length_set]
        exact hlt x (List.mem_cons_of_mem w hx)) i (by rw [List.length_set]; exact hi)]
    by_cases hiw : i = w
    · subst hiw
      have hset : (s.set i (s.getD i 0 + q)).getD i 0 = s.getD i 0 + q := by
        rw [List.getD_eq_getElem _ _ (by rw [List.length_set]; exact hi),
          List.getElem_set_self]
      rw [hset]
      simp [List.mem_cons, hw]
    · have hset : (s.set w (s.getD w 0 + q)).getD i 0 = s.getD i 0 := by
        rw [List.getD_eq_getElem _ _ (by rw [List.length_set]; exact hi),
          List.getElem_set_ne (fun h => hiw h.symm), ← List.getD_eq_getElem _ _ hi]
      rw [hset]
      simp [List.mem_cons, hiw]

/-! ### Properties of `_func` (one step, then the fold) -/

theorem funcStep_length (st : Nat → Nat × Nat) (ot : Nat → Nat) (present : List Nat)
    (sums : List ℚ) (future : Nat) :
    (funcStep st ot present sums future).length = sums.length := by
  unfold funcStep scoreStep
  exact scoreFold_length _ _ _

theorem evaluate_ranks_length (st : Nat → Nat × Nat) (ot : Nat → Nat) (present : List Nat)
    (future : Nat) :
    (present.map (fun p => evaluate st ot (p ||| future))).length = present.length :=
  List.length_map _ _

theorem funcStep_sum (st : Nat → Nat × Nat) (ot : Nat → Nat) (present : List Nat)
    (sums : List ℚ) (future : Nat) (hne : present ≠ [])
    (hlen : sums.length = present.length) :
    (funcStep st ot present sums future).sum = sums.sum + 1 := by
  unfold funcStep scoreStep
  set ranks := present.map (fun p => evaluate st ot (p ||| future)) with hranks
  have hrl : ranks.length = present.length := List.length_map _ _
  have hwne : judge_winners ranks ≠ [] := by
    apply judge_winners_ne_nil
    · intro hnil
      exact hne (List.map_eq_nil.1 (hranks ▸ hnil))
    · intro x hx
      obtain ⟨p, _, rfl⟩ := List.mem_map.1 hx
      exact evaluate_le_sentinel st ot _
  have hwlt : ∀ w ∈ judge_winners ranks, w < sums.length := by
    intro w hw
    rw [hlen, ← hrl]
    exact judge_winners_lt_length ranks w hw
  rw [scoreFold_sum _ _ _ hwlt]
  have hq : ((judge_winners ranks).length : ℚ) ≠ 0 := by
    exact_mod_cast List.length_pos.2 hwne |>.ne'
  field_simp

theorem funcStep_getD (st : Nat → Nat × Nat) (ot : Nat → Nat) (present : List Nat)
    (sums : List ℚ) (future : Nat) (hlen : sums.length = present.length)
    (i : Nat) (hi : i < sums.length) :
    (funcStep st ot present sums future).getD i 0 =
      sums.getD i 0 +
        (if i ∈ judge_winners (present.map (fun p => evaluate st ot (p ||| future))) then
          1 / ((judge_winners (present.map (fun p => evaluate st ot (p ||| future)))).length : ℚ)
        else 0) := by
  unfold funcStep scoreStep
  apply scoreFold_getD _ _ _ (judge_winners_nodup _) _ i hi
  intro w hw
  rw [hlen, ← evaluate_ranks_length st ot present future]
  exact judge_winners_lt_length _ w hw

theorem funcStep_getD_bounds (st : Nat → Nat × Nat) (ot : Nat → Nat) (present : List Nat)
    (sums : List ℚ) (future : Nat) (hlen : sums.length = present.length)
    (i : Nat) (hi : i < sums.length) :
    sums.getD i 0 ≤ (funcStep st ot present sums future).getD i 0 ∧
    (funcStep st ot present sums future).getD i 0 ≤ sums.getD i 0 + 1 := by
  rw [funcStep_getD st ot present sums future hlen i hi]
  set W := judge_winners (present.map (fun p => evaluate st ot (p ||| future))) with hW
  by_cases hmem : i ∈ W
  · rw [if_pos hmem]
    have hpos : (0 : ℚ) < (W.length : ℚ) := by
      exact_mod_cast List.length_pos.2 (List.ne_nil_of_mem hmem)
    have h1 : (1 : ℚ) ≤ (W.length : ℚ) := by
      exact_mod_cast Nat.succ_le_of_lt (List.length_pos.2 (List.ne_nil_of_mem hmem))
    constructor
    · have : (0 : ℚ) ≤ 1 / (W.length : ℚ) := by positivity
      linarith
    · have : 1 / (W.length : ℚ) ≤ 1 := by
        rw [div_le_one hpos]
        exact h1
      linarith
  · rw [if_neg hmem]
    constructor <;> simp

theorem func_foldl_length (st : Nat → Nat × Nat) (ot : Nat → Nat) (present : List Nat) :
    ∀ (futures : List Nat) (s : List ℚ),
      (futures.foldl (funcStep st ot present) s).length = s.length := by
  intro futures
  induction futures with
  | nil => intro s; rfl
  | cons f fs ih => intro s; rw [List.foldl_cons, ih, funcStep_length]

theorem func_foldl_sum (st : Nat → Nat × Nat) (ot : Nat → Nat) (present : List Nat)
    (hne : present ≠ []) : ∀ (futures : List Nat) (s : List ℚ),
      s.length = present.length →
      (futures.foldl (funcStep st ot present) s).sum = s.sum + futures.length := by
  intro futures
  induction futures with
  | nil => intro s _; simp
  | cons f fs ih =>
    intro s hlen
    rw [List.foldl_cons, ih _ (by rw [funcStep_length]; exact hlen),
      funcStep_sum st ot present s f hne hlen, List.length_cons]
    push_cast
    ring

theorem func_foldl_getD_bounds (st : Nat → Nat × Nat) (ot : Nat → Nat) (present : List Nat) :
    ∀ (futures : List Nat) (s : List ℚ), s.length = present.length →
      ∀ i, i < s.length →
      s.getD i 0 ≤ (futures.foldl (funcStep st ot present) s).getD i 0 ∧
      (futures.foldl (funcStep st ot present) s).getD i 0 ≤ s.getD i 0 + futures.length := by
  intro futures
  induction futures with
  | nil => intro s _ i _; simp
  | cons f fs ih =>
    intro s hlen i hi
    rw [List.foldl_cons]
    have hlen2 : (funcStep st ot present s f).length = s.length := funcStep_length _ _ _ _ _
    obtain ⟨ih1, ih2⟩ := ih (funcStep st ot present s f) (by rw [hlen2]; exact hlen) i
      (by rw [hlen2]; exact hi)
    obtain ⟨hs1, hs2⟩ := funcStep_getD_bounds st ot present s f hlen i hi
    refine ⟨le_trans hs1 ih1, le_trans ih2 ?_⟩
    rw [List.length_cons]
    push_cast
    linarith

theorem func_length (st : Nat → Nat × Nat) (ot : Nat → Nat) (present futures : List Nat) :
    (func st ot present futures).length = present.length := by
  unfold func
  rw [func_foldl_length, List.length_replicate]

theorem func_sum (st : Nat → Nat × Nat) (ot : Nat → Nat) (present futures : List Nat)
    (hne : present ≠ []) : (func st ot present futures).sum = futures.length := by
  unfold func
  rw [func_foldl_sum st ot present hne futures _ (List.length_replicate _ _)]
  simp

theorem func_getD_bounds (st : Nat → Nat × Nat) (ot : Nat → Nat) (present futures : List Nat)
    (i : Nat) (hi : i < present.length) :
    0 ≤ (func st ot present futures).getD i 0 ∧
    (func st ot present futures).getD i 0 ≤ futures.length := by
  unfold func
  obtain ⟨h1, h2⟩ := func_foldl_getD_bounds st ot present futures
    (List.replicate present.length (0 : ℚ)) (List.length_replicate _ _) i
    (by rw [List.length_replicate]; exact hi)
  constructor
  · refine le_trans ?_ h1
    rw [List.getD_eq_getElem _ _ (by rw [List.length_replicate]; exact hi)]
    simp
  · refine le_trans h2 ?_
    rw [List.getD_eq_getElem _ _ (by rw [List.length_replicate]; exact hi)]
    simp

/-! ### The present-pattern comprehension -/

theorem presentGo_length (board : String) : ∀ (active : List String) (present : List Nat),
    presentGo board active = some present → present.length = active.length := by
  intro active
  induction active with
  | nil =>
    intro present h
    simp only [presentGo, Option.some.injEq] at h
    subst h
    rfl
  | cons hand rest ih =>
    intro present h
    unfold presentGo at h
    cases hmb : make_bit_pattern [Arg.s hand, Arg.s board] with
    | none => rw [hmb] at h; simp at h
    | some p =>
      rw [hmb] at h
      cases hrec : presentGo board rest with
      | none => rw [hrec] at h; simp at h
      | some ps =>
        rw [hrec] at h
        simp only [Option.some.injEq] at h
        subst h
        simp [ih ps hrec]

/-! ### Unfolding `calculate_equity` on valid inputs -/

theorem calculate_equity_eq (st : Nat → Nat × Nat) (ot : Nat → Nat)
    (active mucked : List String) (board : String) (present : List Nat) (mask : Nat)
    (hP : presentGo board active = some present)
    (hM : make_bit_pattern [Arg.l active, Arg.l mucked, Arg.s board] = some mask)
    (hb : (tokens board).length ≤ 5)
    (hne : all_possibilities mask (5 - (tokens board).length) ≠ []) :
    calculate_equity st ot active mucked board =
      some ((func st ot present (all_possibilities mask (5 - (tokens board).length))).map
        (fun s => s / ((all_possibilities mask (5 - (tokens board).length)).length : ℚ))) := by
  unfold calculate_equity
  rw [hP, hM]
  simp only []
  rw [if_neg (by omega), if_neg (fun hc => hne (List.length_eq_zero.1 hc))]

/-! ### Claim C4: the equity vector is a probability vector -/

/-- Claim C4: under the documented preconditions (at least two active holdings,
board cardinality in {0,3,4,5}, pairwise-disjoint valid cards) and a non-empty
enumeration space, `calculate_equity` succeeds and returns a vector of
rationals, each in [0, 1], summing exactly to 1. -/
theorem calculate_equity_prob_vector (st : Nat → Nat × Nat) (ot : Nat → Nat)
    (active mucked : List String) (board : String) (present : List Nat) (mask : Nat)
    (hP : presentGo board active = some present)
    (hM : make_bit_pattern [Arg.l active, Arg.l mucked, Arg.s board] = some mask)
    (h2 : 2 ≤ active.length)
    (hb : (tokens board).length = 0 ∨ (tokens board).length = 3 ∨
          (tokens board).length = 4 ∨ (tokens board).length = 5)
    (hdisj : ((allCards [Arg.l active, Arg.l mucked, Arg.s board]).map posOf).Nodup)
    (hne : all_possibilities mask (5 - (tokens board).length) ≠ []) :
    ∃ eq, calculate_equity st ot active mucked board = some eq ∧
      eq.sum = 1 ∧ ∀ x ∈ eq, 0 ≤ x ∧ x ≤ 1 := by
  have hb5 : (tokens board).length ≤ 5 := by omega
  set futures := all_possibilities mask (5 - (tokens board).length) with hfut
  refine ⟨_, calculate_equity_eq st ot active mucked board present mask hP hM hb5 hne, ?_, ?_⟩
  · have hpne : present ≠ [] := by
      intro hnil
      have := presentGo_length board active present hP
      rw [hnil] at this
      simp at this
      omega
    rw [sum_map_div, func_sum st ot present futures hpne]
    have hL : ((futures.length : ℚ)) ≠ 0 := by
      have := List.length_pos.2 hne
      exact_mod_cast this.ne'
    field_simp
  · intro x hx
    obtain ⟨y, hy, rfl⟩ := List.mem_map.1 hx
    obtain ⟨i, hi, rfl⟩ := List.mem_iff_getElem.1 hy
    have hi2 : i < present.length := by
      rw [func_length] at hi
      exact hi
    have hgd : (func st ot present futures)[i] = (func st ot present futures).getD i 0 :=
      (List.getD_eq_getElem _ _ hi).symm
    obtain ⟨hlo, hhi⟩ := func_getD_bounds st ot present futures i hi2
    have hLpos : (0 : ℚ) < (futures.length : ℚ) := by
      exact_mod_cast List.length_pos.2 hne
    rw [hgd]
    constructor
    · exact div_nonneg hlo (le_of_lt hLpos)
    · rw [div_le_one hLpos]
      exact hhi

/-- Witness for C4: two holdings on a full board, trivial tables. -/
theorem calculate_equity_prob_vector_witness :
    (presentGo "A♠ A♡ K♠ K♡ Q♠" ["2♠ 3♠", "2♡ 3♡"] =
        some [2 ^ 0 + 2 ^ 1 + 2 ^ 12 + 2 ^ 25 + 2 ^ 11 + 2 ^ 24 + 2 ^ 10,
              2 ^ 13 + 2 ^ 14 + 2 ^ 12 + 2 ^ 25 + 2 ^ 11 + 2 ^ 24 + 2 ^ 10] ∧
      make_bit_pattern [Arg.l ["2♠ 3♠", "2♡ 3♡"], Arg.l [], Arg.s "A♠ A♡ K♠ K♡ Q♠"] =
        some (2 ^ 0 + 2 ^ 1 + 2 ^ 13 + 2 ^ 14 + 2 ^ 12 + 2 ^ 25 + 2 ^ 11 + 2 ^ 24 + 2 ^ 10) ∧
      2 ≤ (["2♠ 3♠", "2♡ 3♡"] : List String).length ∧
      (tokens "A♠ A♡ K♠ K♡ Q♠").length = 5 ∧
      ((allCards [Arg.l ["2♠ 3♠", "2♡ 3♡"], Arg.l [], Arg.s "A♠ A♡ K♠ K♡ Q♠"]).map posOf).Nodup ∧
      all_possibilities
        (2 ^ 0 + 2 ^ 1 + 2 ^ 13 + 2 ^ 14 + 2 ^ 12 + 2 ^ 25 + 2 ^ 11 + 2 ^ 24 + 2 ^ 10)
        (5 - (tokens "A♠ A♡ K♠ K♡ Q♠").length) ≠ []) ∧
    (∃ eq, calculate_equity (fun _ => (0, 9999)) (fun _ => 7462)
        ["2♠ 3♠", "2♡ 3♡"] [] "A♠ A♡ K♠ K♡ Q♠" = some eq ∧
      eq.sum = 1 ∧ ∀ x ∈ eq, 0 ≤ x ∧ x ≤ 1) :=
  ⟨⟨by decide, by decide, by decide, by decide, by decide, by decide⟩,
    calculate_equity_prob_vector (fun _ => (0, 9999)) (fun _ => 7462)
      ["2♠ 3♠", "2♡ 3♡"] [] "A♠ A♡ K♠ K♡ Q♠"
      [2 ^ 0 + 2 ^ 1 + 2 ^ 12 + 2 ^ 25 + 2 ^ 11 + 2 ^ 24 + 2 ^ 10,
       2 ^ 13 + 2 ^ 14 + 2 ^ 12 + 2 ^ 25 + 2 ^ 11 + 2 ^ 24 + 2 ^ 10]
      (2 ^ 0 + 2 ^ 1 + 2 ^ 13 + 2 ^ 14 + 2 ^ 12 + 2 ^ 25 + 2 ^ 11 + 2 ^ 24 + 2 ^ 10)
      (by decide) (by decide) (by decide)
      (by decide) (by decide) (by decide)⟩

/-! ### Claim C7: the degenerate single-showdown case -/

/-- Claim C7: with a full 5-card board, the enumeration yields exactly one
completed board (the empty extension, i.e. the board itself), and the returned
equity vector is the single-showdown vector: `1/k` for each of the `k` tied
winners and `0` for everyone else. -/
theorem calculate_equity_single_showdown (st : Nat → Nat × Nat) (ot : Nat → Nat)
    (active mucked : List String) (board : String) (present : List Nat) (mask : Nat)
    (hP : presentGo board active = some present)
    (hM : make_bit_pattern [Arg.l active, Arg.l mucked, Arg.s board] = some mask)
    (hb : (tokens board).length = 5) :
    all_possibilities mask 0 = [0] ∧
    calculate_equity st ot active mucked board =
      some ((List.range present.length).map (fun i =>
        if i ∈ judge_winners (present.map (fun p => evaluate st ot (p ||| 0)))
        then 1 / ((judge_winners (present.map (fun p => evaluate st ot (p ||| 0)))).length : ℚ)
        else 0)) := by
  have hone : all_possibilities mask 0 = [0] := by
    unfold all_possibilities
    rw [combinations]
    rfl
  refine ⟨hone, ?_⟩
  have hr0 : 5 - (tokens board).length = 0 := by omega
  have heq := calculate_equity_eq st ot active mucked board present mask hP hM (by omega)
    (by rw [hr0, hone]; simp)
  rw [hr0, hone] at heq
  rw [heq]
  congr 1
  have hlen1 : (([0] : List Nat).length : ℚ) = 1 := by norm_num
  have hdiv : ∀ s : ℚ, s / ((([0] : List Nat).length : ℚ)) = s := by
    intro s
    rw [hlen1, div_one]
  have hmap : (func st ot present [0]).map (fun s => s / ((([0] : List Nat).length : ℚ))) =
      func st ot present [0] := by
    rw [show (fun s : ℚ => s / ((([0] : List Nat).length : ℚ))) = fun s : ℚ => s from
      funext hdiv]
    exact List.map_id _
  rw [hmap]
  apply list_eq_of_getD
  · rw [func_length, List.length_map, List.length_range]
  · intro i hi
    rw [func_length] at hi
    have hfunc : func st ot present [0] =
        funcStep st ot present (List.replicate present.length (0 : ℚ)) 0 := rfl
    rw [hfunc,
      funcStep_getD st ot present _ 0 (List.length_replicate _ _) i
        (by rw [List.length_replicate]; exact hi),
      getD_range_map _ _ i hi,
      List.getD_eq_getElem _ _ (by rw [List.length_replicate]; exact hi)]
    simp

/-- Witness for C7: the same two holdings and full board as the C4 witness. -/
theorem calculate_equity_single_showdown_witness :
    (presentGo "A♠ A♡ K♠ K♡ Q♠" ["2♠ 3♠", "2♡ 3♡"] =
        some [2 ^ 0 + 2 ^ 1 + 2 ^ 12 + 2 ^ 25 + 2 ^ 11 + 2 ^ 24 + 2 ^ 10,
              2 ^ 13 + 2 ^ 14 + 2 ^ 12 + 2 ^ 25 + 2 ^ 11 + 2 ^ 24 + 2 ^ 10] ∧
      make_bit_pattern [Arg.l ["2♠ 3♠", "2♡ 3♡"], Arg.l ["7♣ 8♣"], Arg.s "A♠ A♡ K♠ K♡ Q♠"] =
        some (2 ^ 0 + 2 ^ 1 + 2 ^ 13 + 2 ^ 14 + 2 ^ 12 + 2 ^ 25 + 2 ^ 11 + 2 ^ 24 + 2 ^ 10 +
          2 ^ 44 + 2 ^ 45) ∧
      (tokens "A♠ A♡ K♠ K♡ Q♠").length = 5) ∧
    (all_possibilities (2 ^ 0 + 2 ^ 1 + 2 ^ 13 + 2 ^ 14 + 2 ^ 12 + 2 ^ 25 + 2 ^ 11 + 2 ^ 24 +
        2 ^ 10 + 2 ^ 44 + 2 ^ 45) 0 = [0] ∧
      calculate_equity (fun _ => (0, 9999)) (fun _ => 7462) ["2♠ 3♠", "2♡ 3♡"] ["7♣ 8♣"]
          "A♠ A♡ K♠ K♡ Q♠" =
        some ((List.range ([2 ^ 0 + 2 ^ 1 + 2 ^ 12 + 2 ^ 25 + 2 ^ 11 + 2 ^ 24 + 2 ^ 10,
              2 ^ 13 + 2 ^ 14 + 2 ^ 12 + 2 ^ 25 + 2 ^ 11 + 2 ^ 24 + 2 ^ 10] : List Nat).length).map
          (fun i =>
            if i ∈ judge_winners (([2 ^ 0 + 2 ^ 1 + 2 ^ 12 + 2 ^ 25 + 2 ^ 11 + 2 ^ 24 + 2 ^ 10,
                  2 ^ 13 + 2 ^ 14 + 2 ^ 12 + 2 ^ 25 + 2 ^ 11 + 2 ^ 24 + 2 ^ 10] : List Nat).map
                (fun p => evaluate (fun _ => (0, 9999)) (fun _ => 7462) (p ||| 0)))
            then 1 / ((judge_winners (([2 ^ 0 + 2 ^ 1 + 2 ^ 12 + 2 ^ 25 + 2 ^ 11 + 2 ^ 24 + 2 ^ 10,
                  2 ^ 13 + 2 ^ 14 + 2 ^ 12 + 2 ^ 25 + 2 ^ 11 + 2 ^ 24 + 2 ^ 10] : List Nat).map
                (fun p => evaluate (fun _ => (0, 9999)) (fun _ => 7462) (p ||| 0)))).length : ℚ)
            else 0))) :=
  ⟨⟨by decide, by decide, by decide⟩,
    calculate_equity_single_showdown (fun _ => (0, 9999)) (fun _ => 7462)
      ["2♠ 3♠", "2♡ 3♡"] ["7♣ 8♣"] "A♠ A♡ K♠ K♡ Q♠"
      [2 ^ 0 + 2 ^ 1 + 2 ^ 12 + 2 ^ 25 + 2 ^ 11 + 2 ^ 24 + 2 ^ 10,
       2 ^ 13 + 2 ^ 14 + 2 ^ 12 + 2 ^ 25 + 2 ^ 11 + 2 ^ 24 + 2 ^ 10]
      (2 ^ 0 + 2 ^ 1 + 2 ^ 13 + 2 ^ 14 + 2 ^ 12 + 2 ^ 25 + 2 ^ 11 + 2 ^ 24 + 2 ^ 10 +
        2 ^ 44 + 2 ^ 45)
      (by decide) (by decide) (by decide)⟩

/-! ### Claim C6: the chunking operation -/

theorem chunk_length {α : Type _} (l : List α) (d : Nat) : (chunk l d).length = d := by
  simp [chunk]

theorem chunk_getD {α : Type _} (l : List α) (d i : Nat) (hi : i < d) :
    (chunk l d).getD i [] =
      (l.drop (i * l.length / d)).take ((i + 1) * l.length / d - i * l.length / d) := by
  unfold chunk
  rw [List.getD_eq_getElem _ _ (by simpa using hi)]
  simp

theorem chunk_flatten_take {α : Type _} (l : List α) (d : Nat) : ∀ m : Nat,
    ((List.range m).map (fun i => (l.drop (i * l.length / d)).take
      ((i + 1) * l.length / d - i * l.length / d))).flatten = l.take (m * l.length / d) := by
  intro m
  induction m with
  | zero => simp
  | succ m ih =>
    rw [List.range_succ, List.map_append, List.flatten_append, ih]
    have hmono : m * l.length / d ≤ (m + 1) * l.length / d :=
      Nat.div_le_div_right (Nat.mul_le_mul_right _ (by omega))
    have hb : (m + 1) * l.length / d =
        m * l.length / d + ((m + 1) * l.length / d - m * l.length / d) := by omega
    conv_rhs => rw [hb]
    rw [List.take_add]
    simp

theorem chunk_flatten {α : Type _} (l : List α) (d : Nat) (hd : 1 ≤ d) :
    (chunk l d).flatten = l := by
  unfold chunk
  rw [chunk_flatten_take l d d, Nat.mul_div_cancel_left _ (by omega : 0 < d),
    List.take_length]

theorem chunk_size {α : Type _} (l : List α) (d : Nat) (hd : 0 < d) (i : Nat) (hi : i < d) :
    ((chunk l d).getD i []).length = (i + 1) * l.length / d - i * l.length / d := by
  rw [chunk_getD l d i hi, List.length_take, List.length_drop]
  have he : (i + 1) * l.length / d ≤ l.length := by
    calc (i + 1) * l.length / d ≤ d * l.length / d :=
          Nat.div_le_div_right (Nat.mul_le_mul_right _ (by omega))
      _ = l.length := Nat.mul_div_cancel_left _ hd
  omega

theorem chunk_size_near {α : Type _} (l : List α) (d : Nat) (hd : 0 < d) (i : Nat)
    (hi : i < d) :
    l.length / d ≤ ((chunk l d).getD i []).length ∧
    ((chunk l d).getD i []).length ≤ l.length / d + 1 := by
  rw [chunk_size l d hd i hi]
  have hsucc : (i + 1) * l.length = i * l.length + l.length := by ring
  rw [hsucc, Nat.add_div hd]
  split_ifs with h
  · generalize i * l.length / d = A
    generalize l.length / d = B
    omega
  · generalize i * l.length / d = A
    generalize l.length / d = B
    omega

/-- Claim C6: for every list and every positive worker count `d`, `_chunk`
yields exactly `d` contiguous slices with boundaries `i*n/d` and `(i+1)*n/d`,
whose concatenation is the original list (full coverage, no overlap, no gap),
and whose sizes pairwise differ by at most 1. -/
theorem chunk_spec {α : Type _} (l : List α) (d : Nat) (hd : 1 ≤ d) :
    (chunk l d).length = d ∧
    (∀ i, i < d → (chunk l d).getD i [] =
      (l.drop (i * l.length / d)).take ((i + 1) * l.length / d - i * l.length / d)) ∧
    (chunk l d).flatten = l ∧
    (∀ i, i < d → ((chunk l d).getD i []).length =
      (i + 1) * l.length / d - i * l.length / d) ∧
    (∀ i j, i < d → j < d →
      ((chunk l d).getD i []).length ≤ ((chunk l d).getD j []).length + 1) := by
  refine ⟨chunk_length l d, fun i hi => chunk_getD l d i hi, chunk_flatten l d hd,
    fun i hi => chunk_size l d (by omega) i hi, fun i j hi hj => ?_⟩
  obtain ⟨_, h2⟩ := chunk_size_near l d (by omega) i hi
  obtain ⟨h3, _⟩ := chunk_size_near l d (by omega) j hj
  omega

/-- Witness for C6 on a five-element list split into two chunks. -/
theorem chunk_spec_witness :
    (1 : Nat) ≤ 2 ∧
      ((chunk ([10, 20, 30, 40, 50] : List Nat) 2).length = 2 ∧
       (∀ i, i < 2 → (chunk ([10, 20, 30, 40, 50] : List Nat) 2).getD i [] =
         (([10, 20, 30, 40, 50] : List Nat).drop
            (i * ([10, 20, 30, 40, 50] : List Nat).length / 2)).take
          ((i + 1) * ([10, 20, 30, 40, 50] : List Nat).length / 2 -
            i * ([10, 20, 30, 40, 50] : List Nat).length / 2)) ∧
       (chunk ([10, 20, 30, 40, 50] : List Nat) 2).flatten = [10, 20, 30, 40, 50] ∧
       (∀ i, i < 2 → ((chunk ([10, 20, 30, 40, 50] : List Nat) 2).getD i []).length =
         (i + 1) * ([10, 20, 30, 40, 50] : List Nat).length / 2 -
           i * ([10, 20, 30, 40, 50] : List Nat).length / 2) ∧
       (∀ i j, i < 2 → j < 2 →
         ((chunk ([10, 20, 30, 40, 50] : List Nat) 2).getD i []).length ≤
           ((chunk ([10, 20, 30, 40, 50] : List Nat) 2).getD j []).length + 1)) :=
  ⟨by decide, chunk_spec [10, 20, 30, 40, 50] 2 (by decide)⟩

/-! ### Claim C5: the parallel path equals the sequential path -/

theorem pyAddVec_length (n : Nat) (a b : List ℚ) : (pyAddVec n a b).length = n := by
  simp [pyAddVec]

theorem pyAddVec_getD (n : Nat) (a b : List ℚ) (i : Nat) (hi : i < n) :
    (pyAddVec n a b).getD i 0 = a.getD i 0 + b.getD i 0 :=
  getD_range_map _ n i hi

theorem pyAddVec_assoc (n : Nat) (a b c : List ℚ) :
    pyAddVec n (pyAddVec n a b) c = pyAddVec n a (pyAddVec n b c) := by
  apply list_eq_of_getD
  · rw [pyAddVec_length, pyAddVec_length]
  · intro i hi
    rw [pyAddVec_length] at hi
    rw [pyAddVec_getD _ _ _ _ hi, pyAddVec_getD _ _ _ _ hi, pyAddVec_getD _ _ _ _ hi,
      pyAddVec_getD _ _ _ _ hi]
    ring

theorem getD_replicate_zero (n i : Nat) (hi : i < n) :
    (List.replicate n (0 : ℚ)).getD i 0 = 0 := by
  rw [List.getD_eq_getElem _ _ (by rw [List.length_replicate]; exact hi),
    List.getElem_replicate]

theorem pyAddVec_zero_left (n : Nat) (b : List ℚ) (hb : b.length = n) :
    pyAddVec n (List.replicate n 0) b = b := by
  apply list_eq_of_getD
  · rw [pyAddVec_length, hb]
  · intro i hi
    rw [pyAddVec_length] at hi
    rw [pyAddVec_getD _ _ _ _ hi, getD_replicate_zero n i hi, zero_add]

theorem pyAddVec_zero_right (n : Nat) (a : List ℚ) (ha : a.length = n) :
    pyAddVec n a (List.replicate n 0) = a := by
  apply list_eq_of_getD
  · rw [pyAddVec_length, ha]
  · intro i hi
    rw [pyAddVec_length] at hi
    rw [pyAddVec_getD _ _ _ _ hi, getD_replicate_zero n i hi, add_zero]

theorem funcStep_linear (st : Nat → Nat × Nat) (ot : Nat → Nat) (present : List Nat)
    (s : List ℚ) (f : Nat) (hs : s.length = present.length) :
    funcStep st ot present s f =
      pyAddVec present.length s
        (funcStep st ot present (List.replicate present.length 0) f) := by
  apply list_eq_of_getD
  · rw [funcStep_length, hs, pyAddVec_length]
  · intro i hi
    rw [funcStep_length] at hi
    have hi2 : i < present.length := hs ▸ hi
    rw [funcStep_getD st ot present s f hs i hi, pyAddVec_getD _ _ _ i hi2,
      funcStep_getD st ot present _ f (List.length_replicate _ _) i
        (by rw [List.length_replicate]; exact hi2),
      getD_replicate_zero _ i hi2]
    ring

theorem func_foldl_linear (st : Nat → Nat × Nat) (ot : Nat → Nat) (present : List Nat) :
    ∀ (futures : List Nat) (s : List ℚ), s.length = present.length →
      futures.foldl (funcStep st ot present) s =
        pyAddVec present.length s (func st ot present futures) := by
  intro futures
  induction futures with
  | nil =>
    intro s hs
    show s = pyAddVec present.length s (List.replicate present.length 0)
    exact (pyAddVec_zero_right present.length s hs).symm
  | cons f fs ih =>
    intro s hs
    have hstep : (funcStep st ot present s f).length = present.length := by
      rw [funcStep_length, hs]
    have hzero : (funcStep st ot present (List.replicate present.length 0) f).length =
        present.length := by
      rw [funcStep_length, List.length_replicate]
    have hcons : func st ot present (f :: fs) =
        pyAddVec present.length (funcStep st ot present (List.replicate present.length 0) f)
          (func st ot present fs) := by
      unfold func
      rw [List.foldl_cons]
      exact ih _ hzero
    rw [List.foldl_cons, ih _ hstep, funcStep_linear st ot present s f hs, hcons,
      pyAddVec_assoc]

theorem func_append (st : Nat → Nat × Nat) (ot : Nat → Nat) (present : List Nat)
    (a b : List Nat) :
    func st ot present (a ++ b) =
      pyAddVec present.length (func st ot present a) (func st ot present b) := by
  have h1 : func st ot present (a ++ b) =
      b.foldl (funcStep st ot present) (func st ot present a) := by
    unfold func
    rw [List.foldl_append]
  rw [h1]
  exact func_foldl_linear st ot present b _ (func_length st ot present a)

theorem foldl_pyAdd_map_func (st : Nat → Nat × Nat) (ot : Nat → Nat) (present : List Nat) :
    ∀ (cs : List (List Nat)) (acc : List ℚ), acc.length = present.length →
      (cs.map (func st ot present)).foldl (pyAddVec present.length) acc =
        pyAddVec present.length acc (func st ot present cs.flatten) := by
  intro cs
  induction cs with
  | nil =>
    intro acc hacc
    show acc = pyAddVec present.length acc (func st ot present [])
    have hnil : func st ot present [] = List.replicate present.length 0 := rfl
    rw [hnil]
    exact (pyAddVec_zero_right present.length acc hacc).symm
  | cons c cs ih =>
    intro acc hacc
    rw [List.map_cons, List.foldl_cons,
      ih _ (pyAddVec_length present.length acc (func st ot present c)),
      List.flatten_cons, func_append, pyAddVec_assoc]

/-- Claim C5: for every input and every positive worker count,
`calculate_equity_in_parallel` returns exactly the same result as
`calculate_equity` — chunking, per-chunk scoring, elementwise reduction and
final normalisation do not change the value (exact equality in ℚ). -/
theorem parallel_eq_sequential (st : Nat → Nat × Nat) (ot : Nat → Nat) (cpu : Nat)
    (active mucked : List String) (board : String) (hcpu : 1 ≤ cpu) :
    calculate_equity_in_parallel st ot cpu active mucked board =
      calculate_equity st ot active mucked board := by
  unfold calculate_equity_in_parallel calculate_equity
  cases hP : presentGo board active with
  | none => rfl
  | some present =>
    cases hM : make_bit_pattern [Arg.l active, Arg.l mucked, Arg.s board] with
    | none => rfl
    | some mask =>
      simp only []
      by_cases hb : 5 < (tokens board).length
      · rw [if_pos hb, if_pos hb]
      · rw [if_neg hb, if_neg hb]
        by_cases hlen : (all_possibilities mask (5 - (tokens board).length)).length = 0
        · rw [if_pos hlen, if_pos hlen]
        · rw [if_neg hlen, if_neg hlen]
          congr 1
          congr 1
          have hplen : present.length = active.length := presentGo_length board active present hP
          rw [← hplen,
            foldl_pyAdd_map_func st ot present _ _ (List.length_replicate _ _),
            chunk_flatten _ cpu hcpu]
          exact pyAddVec_zero_left present.length _ (func_length st ot present _)

/-- Witness for C5: a concrete two-way full-board call with two workers. -/
theorem parallel_eq_sequential_witness :
    (1 : Nat) ≤ 2 ∧
      calculate_equity_in_parallel (fun _ => (0, 9999)) (fun _ => 7462) 2
          ["2♠ 3♠", "2♡ 3♡"] [] "A♠ A♡ K♠ K♡ Q♠" =
        calculate_equity (fun _ => (0, 9999)) (fun _ => 7462)
          ["2♠ 3♠", "2♡ 3♡"] [] "A♠ A♡ K♠ K♡ Q♠" :=
  ⟨by decide, parallel_eq_sequential (fun _ => (0, 9999)) (fun _ => 7462) 2
    ["2♠ 3♠", "2♡ 3♡"] [] "A♠ A♡ K♠ K♡ Q♠" (by decide)⟩

/-! ### Bit-level semantics of `_make_bit_pattern` (for C9 and C10) -/

theorem orTokens_none_iff : ∀ (cs : List String) (pat : Nat),
    orTokens pat cs = none ↔ ∃ c ∈ cs, posOf c = none := by
  intro cs
  induction cs with
  | nil => intro pat; simp [orTokens]
  | cons c cs ih =>
    intro pat
    cases hc : posOf c with
    | none =>
      simp only [orTokens, hc]
      constructor
      · intro _; exact ⟨c, List.mem_cons_self c cs, hc⟩
      · intro _; trivial
    | some p =>
      simp only [orTokens, hc]
      rw [ih]
      constructor
      · rintro ⟨x, hx, hnone⟩
        exact ⟨x, List.mem_cons_of_mem c hx, hnone⟩
      · rintro ⟨x, hx, hnone⟩
        rcases List.mem_cons.1 hx with rfl | hx
        · rw [hc] at hnone; cases hnone
        · exact ⟨x, hx, hnone⟩

theorem orTokens_some_testBit : ∀ (cs : List String) (pat : Nat),
    (∀ c ∈ cs, (posOf c).isSome) →
    ∃ m, orTokens pat cs = some m ∧
      ∀ j, m.testBit j = (pat.testBit j || decide (∃ c ∈ cs, posOf c = some j)) := by
  intro cs
  induction cs with
  | nil =>
    intro pat _
    refine ⟨pat, rfl, fun j => ?_⟩
    simp
  | cons c cs ih =>
    intro pat hv
    obtain ⟨p, hp⟩ := Option.isSome_iff_exists.1 (hv c (List.mem_cons_self c cs))
    obtain ⟨m, hm, hbits⟩ := ih (pat ||| (1 <<< p))
      (fun x hx => hv x (List.mem_cons_of_mem c hx))
    refine ⟨m, ?_, ?_⟩
    · simp only [orTokens, hp]
      exact hm
    · intro j
      rw [hbits j, Nat.testBit_lor]
      have h2 : (1 <<< p).testBit j = decide (p = j) := by
        rw [Nat.shiftLeft_eq, one_mul]
        by_cases hpj : p = j
        · subst hpj; simp [Nat.testBit_two_pow_self]
        · simp [Nat.testBit_two_pow_of_ne hpj, hpj]
      rw [h2]
      have h3 : (∃ x ∈ c :: cs, posOf x = some j) ↔ (p = j ∨ ∃ x ∈ cs, posOf x = some j) := by
        constructor
        · rintro ⟨x, hx, hxj⟩
          rcases List.mem_cons.1 hx with rfl | hx
          · rw [hp] at hxj
            exact Or.inl (Option.some.inj hxj)
          · exact Or.inr ⟨x, hx, hxj⟩
        · rintro (rfl | ⟨x, hx, hxj⟩)
          · exact ⟨c, List.mem_cons_self c cs, hp⟩
          · exact ⟨x, List.mem_cons_of_mem c hx, hxj⟩
      have h4 : decide (∃ x ∈ c :: cs, posOf x = some j) =
          (decide (p = j) || decide (∃ x ∈ cs, posOf x = some j)) := by
        rw [← Bool.decide_or]
        exact decide_eq_decide.2 h3
      rw [h4, Bool.or_assoc]

theorem allCards_cons (a : Arg) (args : List Arg) :
    allCards (a :: args) = argCards a ++ allCards args := by
  simp [allCards]

theorem mbpGo_none_iff : ∀ (args : List Arg) (pat : Nat),
    mbpGo args pat = none ↔ ∃ c ∈ allCards args, posOf c = none := by
  intro args
  induction args with
  | nil => intro pat; simp [mbpGo, allCards]
  | cons a args ih =>
    intro pat
    rw [allCards_cons]
    cases ho : orTokens pat (argCards a) with
    | none =>
      simp only [mbpGo, ho]
      obtain ⟨c, hc, hnone⟩ := (orTokens_none_iff (argCards a) pat).1 ho
      constructor
      · intro _
        exact ⟨c, List.mem_append_left _ hc, hnone⟩
      · intro _; trivial
    | some pat2 =>
      simp only [mbpGo, ho]
      rw [ih]
      constructor
      · rintro ⟨x, hx, hnone⟩
        exact ⟨x, List.mem_append_right _ hx, hnone⟩
      · rintro ⟨x, hx, hnone⟩
        rcases List.mem_append.1 hx with hx | hx
        · exact absurd ho (by
            rw [(orTokens_none_iff (argCards a) pat).2 ⟨x, hx, hnone⟩]
            simp)
        · exact ⟨x, hx, hnone⟩

theorem mbpGo_testBit : ∀ (args : List Arg) (pat : Nat),
    (∀ c ∈ allCards args, (posOf c).isSome) →
    ∃ m, mbpGo args pat = some m ∧
      ∀ j, m.testBit j = (pat.testBit j || decide (∃ c ∈ allCards args, posOf c = some j)) := by
  intro args
  induction args with
  | nil =>
    intro pat _
    refine ⟨pat, rfl, fun j => ?_⟩
    simp [allCards]
  | cons a args ih =>
    intro pat hv
    rw [allCards_cons] at hv
    obtain ⟨m1, hm1, hbits1⟩ := orTokens_some_testBit (argCards a) pat
      (fun c hc => hv c (List.mem_append_left _ hc))
    obtain ⟨m, hm, hbits⟩ := ih m1 (fun c hc => hv c (List.mem_append_right _ hc))
    refine ⟨m, ?_, ?_⟩
    · simp only [mbpGo, hm1]
      exact hm
    · intro j
      rw [allCards_cons, hbits j, hbits1 j]
      have h3 : (∃ c ∈ argCards a ++ allCards args, posOf c = some j) ↔
          ((∃ c ∈ argCards a, posOf c = some j) ∨ ∃ c ∈ allCards args, posOf c = some j) := by
        constructor
        · rintro ⟨x, hx, hxj⟩
          rcases List.mem_append.1 hx with hx | hx
          · exact Or.inl ⟨x, hx, hxj⟩
          · exact Or.inr ⟨x, hx, hxj⟩
        · rintro (⟨x, hx, hxj⟩ | ⟨x, hx, hxj⟩)
          · exact ⟨x, List.mem_append_left _ hx, hxj⟩
          · exact ⟨x, List.mem_append_right _ hx, hxj⟩
      have h4 : decide (∃ c ∈ argCards a ++ allCards args, posOf c = some j) =
          (decide (∃ c ∈ argCards a, posOf c = some j) ||
            decide (∃ c ∈ allCards args, posOf c = some j)) := by
        rw [← Bool.decide_or]
        exact decide_eq_decide.2 h3
      rw [h4, Bool.or_assoc]

theorem make_bit_pattern_testBit (args : List Arg)
    (hv : ∀ c ∈ allCards args, (posOf c).isSome) :
    ∃ m, make_bit_pattern args = some m ∧
      ∀ j, m.testBit j = decide (∃ c ∈ allCards args, posOf c = some j) := by
  obtain ⟨m, hm, hbits⟩ := mbpGo_testBit args 0 hv
  refine ⟨m, hm, fun j => ?_⟩
  rw [hbits j, Nat.zero_testBit, Bool.false_or]

theorem posOf_lt_52 (t : String) (j : Nat) (h : posOf t = some j) : j < 52 := by
  unfold posOf at h
  cases hfind : POS.find? (fun p => p.1 == t) with
  | none => rw [hfind] at h; cases h
  | some pr =>
    rw [hfind] at h
    simp at h
    have hmem := List.mem_of_find?_eq_some hfind
    have hall : ∀ q ∈ POS, q.2 < 52 := by decide
    have := hall pr hmem
    omega

/-! ### Claim C10: `_make_bit_pattern` computes the union of card bits -/

/-- Claim C10: `_make_bit_pattern` returns the bitwise OR of the bit positions
of all card tokens of all its arguments; consequently the result is invariant
under reordering and duplication of cards — two argument lists denoting the
same card set (including a card written twice, or once per glyph alphabet)
produce the identical pattern, and duplicates are silently merged rather than
rejected. -/
theorem make_bit_pattern_or_semantics (args args2 : List Arg)
    (hv : ∀ c ∈ allCards args, (posOf c).isSome)
    (hv2 : ∀ c ∈ allCards args2, (posOf c).isSome)
    (hset : ∀ j, j < 52 → ((∃ c ∈ allCards args, posOf c = some j) ↔
                           (∃ c ∈ allCards args2, posOf c = some j))) :
    ∃ m, make_bit_pattern args = some m ∧
      (∀ j, m.testBit j = decide (∃ c ∈ allCards args, posOf c = some j)) ∧
      make_bit_pattern args2 = some m := by
  obtain ⟨m, hm, hbits⟩ := make_bit_pattern_testBit args hv
  obtain ⟨m2, hm2, hbits2⟩ := make_bit_pattern_testBit args2 hv2
  refine ⟨m, hm, hbits, ?_⟩
  have hmm : m2 = m := by
    apply Nat.eq_of_testBit_eq
    intro j
    rw [hbits2 j, hbits j]
    by_cases hj : j < 52
    · exact decide_eq_decide.2 (hset j hj).symm
    · have h1 : ¬ ∃ c ∈ allCards args, posOf c = some j := by
        rintro ⟨c, _, hc⟩
        exact hj (posOf_lt_52 c j hc)
      have h2 : ¬ ∃ c ∈ allCards args2, posOf c = some j := by
        rintro ⟨c, _, hc⟩
        exact hj (posOf_lt_52 c j hc)
      simp [h1, h2]
  rw [hm2, hmm]

/-- Witness for C10: the ace of spades written twice in one notation versus
once in the alternate notation gives the same single-bit pattern. -/
theorem make_bit_pattern_or_semantics_witness :
    ((∀ c ∈ allCards [Arg.s "A♠ A♠"], (posOf c).isSome) ∧
     (∀ c ∈ allCards [Arg.s "A♤"], (posOf c).isSome) ∧
     (∀ j, j < 52 → ((∃ c ∈ allCards [Arg.s "A♠ A♠"], posOf c = some j) ↔
                     (∃ c ∈ allCards [Arg.s "A♤"], posOf c = some j)))) ∧
    (∃ m, make_bit_pattern [Arg.s "A♠ A♠"] = some m ∧
      (∀ j, m.testBit j = decide (∃ c ∈ allCards [Arg.s "A♠ A♠"], posOf c = some j)) ∧
      make_bit_pattern [Arg.s "A♤"] = some m) :=
  ⟨⟨by decide, by decide, by decide⟩,
    make_bit_pattern_or_semantics [Arg.s "A♠ A♠"] [Arg.s "A♤"]
      (by decide) (by decide) (by decide)⟩

/-! ### Claim C9: boundary validation (corrected) -/

/-- Counterexample to C9: three boundary-invalid calls that succeed and return
a vector instead of failing fast — a call with a single active holding (fewer
than the required two), a call with a duplicated card, and a call whose board
has 2 cards (cardinality outside {0,3,4,5}; 43 mucked cards leave exactly one
three-card completion, so the call runs its enumeration and returns). -/
theorem calculate_equity_no_fail_fast :
    ((["A♠ K♠"] : List String).length < 2 ∧
      (calculate_equity (fun _ => (0, 9999)) (fun _ => 7462)
        ["A♠ K♠"] [] "2♡ 3♡ 4♡ 5♡ 6♡").isSome = true) ∧
    (¬ ((allCards [Arg.l ["A♠ K♠", "A♠ Q♠"], Arg.l [], Arg.s "2♡ 3♡ 4♡ 5♡ 6♡"]).map
        posOf).Nodup ∧
      (calculate_equity (fun _ => (0, 9999)) (fun _ => 7462)
        ["A♠ K♠", "A♠ Q♠"] [] "2♡ 3♡ 4♡ 5♡ 6♡").isSome = true) ∧
    ((tokens "6♠ 7♠").length = 2 ∧
      (calculate_equity (fun _ => (0, 9999)) (fun _ => 7462)
        ["2♠ 3♠", "4♠ 5♠"]
        ["8♠ 9♠ T♠ J♠ Q♠ K♠ A♠",
         "2♡ 3♡ 4♡ 5♡ 6♡ 7♡ 8♡ 9♡ T♡ J♡ Q♡ K♡ A♡",
         "2♢ 3♢ 4♢ 5♢ 6♢ 7♢ 8♢ 9♢ T♢ J♢ Q♢ K♢ A♢",
         "2♣ 3♣ 4♣ 5♣ 6♣ 7♣ 8♣ 9♣ T♣ J♣"]
        "6♠ 7♠").isSome = true) :=
  ⟨⟨by decide, rfl⟩, ⟨by decide, rfl⟩, ⟨by decide, rfl⟩⟩

/-- Claim C9 amended: a malformed card token anywhere in the holdings, mucked
hands or board makes `calculate_equity` fail (the `KeyError` of the `_POS`
lookup, raised while the bit patterns are built, before any enumeration);
the remaining boundary conditions are not validated. -/
theorem calculate_equity_fails_on_bad_token (st : Nat → Nat × Nat) (ot : Nat → Nat)
    (active mucked : List String) (board : String)
    (hbad : ∃ c ∈ allCards [Arg.l active, Arg.l mucked, Arg.s board], posOf c = none) :
    calculate_equity st ot active mucked board = none := by
  have hM : make_bit_pattern [Arg.l active, Arg.l mucked, Arg.s board] = none :=
    (mbpGo_none_iff _ 0).2 hbad
  unfold calculate_equity
  rw [hM]
  cases presentGo board active <;> rfl

/-- Witness for the amended C9: an unknown token on the board fails. -/
theorem calculate_equity_fails_on_bad_token_witness :
    (∃ c ∈ allCards [Arg.l ["A♠ K♠", "Q♡ J♡"], Arg.l [], Arg.s "XX"], posOf c = none) ∧
    calculate_equity (fun _ => (0, 9999)) (fun _ => 7462) ["A♠ K♠", "Q♡ J♡"] [] "XX" = none :=
  ⟨by decide, calculate_equity_fails_on_bad_token (fun _ => (0, 9999)) (fun _ => 7462)
    ["A♠ K♠", "Q♡ J♡"] [] "XX" (by decide)⟩

end Tonteki
